import Mathlib

/-!
Shallow embedding of the run tracker of nateberkopec/ghwatch
(package internal/watch, file tracker.go) and proofs of the
specification properties stated for it.

Modelling conventions:
- Go int64 run identifiers are only created and compared for equality, so
  they are modelled by Int (no arithmetic, hence no overflow concerns).
- time.Time values are opaque stamps: they are modelled by Nat, and each
  call of time.Now() in the source becomes an explicit `now` parameter of
  the corresponding operation.  The Go zero time is modelled by 0.
- Go type RunStatus is a string type, Kind an int type; they are modelled
  by String and Int with the same named constants as the source.
- A Go map from int64 to TrackedRun pointers is modelled by an association
  list (RunMap) with first-match lookup (mfind), update-or-append insertion
  (minsert, the semantics of m[k] = v) and deletion of every binding of the
  key (merase, the semantics of delete(m, k)).  In-place mutation through a
  pointer held in a map becomes minsert of the updated record.
- Go map iteration order is unspecified; operations of the source that
  range over a map (ExportState) therefore take the enumeration of the map
  values as an explicit parameter, which the theorems constrain to be a
  permutation of the values of the map.
- Go slice values are modelled by List Int64.  Where a claim is about
  aliasing of slice backing arrays (the slices.Clone calls of ExportState,
  ImportState and IDs), a second reference-level model is used: a Heap is
  an arena of slice contents, a slice value is an index into the arena,
  and slices.Clone allocates a fresh index holding the same contents.
-/

namespace GhWatch

/-- Run identifiers (Go int64, equality only). -/
abbrev Int64 := Int

/-- Opaque time stamps (Go time.Time). -/
abbrev Time := Nat

/-- Go: type RunStatus string. -/
abbrev RunStatus := String

def RunStatusPending : RunStatus := "pending"

def RunStatusSuccess : RunStatus := "success"

def RunStatusFailed : RunStatus := "failed"

/-- Go: type Kind int (githuburl). -/
abbrev Kind := Int

def KindUnknown : Kind := 0

def KindWorkflowRun : Kind := 1

def KindPullRequest : Kind := 2

def KindCommit : Kind := 3

/-- githubclient.WorkflowRun: the normalized run record consumed by the tracker. -/
structure WorkflowRun where
  ID : Int64
  Name : String
  WorkflowName : String
  RepoFullName : String
  Target : String
  TargetURL : String
  Status : RunStatus
  StatusDetail : String
  HTMLURL : String
  HeadBranch : String
  HeadSHA : String
  Event : String
  PRNumber : Int
  PRURL : String
  LastUpdatedAt : Time
deriving DecidableEq

/-- githuburl.Parsed: the run source descriptor. -/
structure Parsed where
  Kind : Kind
  Owner : String
  Repo : String
  RunID : Int64
  PRNumber : Int
  SHA : String
  RawURL : String
deriving DecidableEq

/-- watch.TrackedRun: one workflow run under observation. -/
structure TrackedRun where
  Run : WorkflowRun
  Source : Parsed
  AddedAt : Time
  ArchivedAt : Time
deriving DecidableEq

/-- Model of Go map from int64 to TrackedRun: an association list. -/
abbrev RunMap := List (Int64 × TrackedRun)

/-- Map lookup (first match), the semantics of v, ok := m[k]. -/
def mfind : RunMap → Int64 → Option TrackedRun
  | [], _ => none
  | (k, v) :: rest, key => if k = key then some v else mfind rest key

/-- Map write m[k] = v: replace the first binding of k, or append. -/
def minsert : RunMap → Int64 → TrackedRun → RunMap
  | [], key, v => [(key, v)]
  | (k, w) :: rest, key, v =>
      if k = key then (k, v) :: rest else (k, w) :: minsert rest key v

/-- Map deletion delete(m, k): drop every binding of k. -/
def merase : RunMap → Int64 → RunMap
  | [], _ => []
  | (k, v) :: rest, key =>
      if k = key then merase rest key else (k, v) :: merase rest key

/-- The keys of a map model. -/
def mkeys (m : RunMap) : List Int64 := m.map Prod.fst

/-- The values of a map model (the range the Go for loop enumerates). -/
def mvalues (m : RunMap) : List TrackedRun := m.map Prod.snd

/-- watch.Tracker: the catalog of workflow runs that the UI renders. -/
structure Tracker where
  activeOrder : List Int64
  archivedOrder : List Int64
  active : RunMap
  archived : RunMap
deriving DecidableEq

/-- Go removeID: keep, in order, the items different from id. -/
def removeID (items : List Int64) (id : Int64) : List Int64 :=
  items.filter fun existing => decide (existing ≠ id)

/-- Go prependUnique: remove id if present, then prepend it. -/
def prependUnique (items : List Int64) (id : Int64) : List Int64 :=
  id :: removeID items id

/-- Go collectRuns: look every id of the order up, skipping missing entries. -/
def collectRuns (order : List Int64) (lookup : RunMap) : List TrackedRun :=
  match order with
  | [] => []
  | id :: rest =>
      match mfind lookup id with
      | some run => run :: collectRuns rest lookup
      | none => collectRuns rest lookup

/-- Go NewTracker: a tracker with no runs. -/
def NewTracker : Tracker :=
  { activeOrder := [], archivedOrder := [], active := [], archived := [] }

/-- Go Tracker.Upsert.  Returns the new tracker together with the pair
(newRun, statusChanged).  The time.Now() of the fresh-insertion branch is
the explicit parameter now. -/
def Tracker.Upsert (t : Tracker) (run : WorkflowRun) (source : Parsed)
    (now : Time) : Tracker × Bool × Bool :=
  match mfind t.active run.ID with
  | some existing =>
      let statusChanged := decide (existing.Run.Status ≠ run.Status)
      let updated :=
        if existing.Source.Kind = KindUnknown ∧ source.Kind ≠ KindUnknown then
          { existing with Run := run, Source := source }
        else
          { existing with Run := run }
      ({ t with active := minsert t.active run.ID updated }, false, statusChanged)
  | none =>
    match mfind t.archived run.ID with
    | some existing =>
        let statusChanged := decide (existing.Run.Status ≠ run.Status)
        let updated :=
          if existing.Source.Kind = KindUnknown ∧ source.Kind ≠ KindUnknown then
            { existing with Run := run, Source := source }
          else
            { existing with Run := run }
        ({ t with
            archived := merase t.archived run.ID,
            archivedOrder := removeID t.archivedOrder run.ID,
            active := minsert t.active run.ID updated,
            activeOrder := prependUnique t.activeOrder run.ID },
          true, statusChanged)
    | none =>
        let entry : TrackedRun :=
          { Run := run, Source := source, AddedAt := now, ArchivedAt := 0 }
        ({ t with
            active := minsert t.active run.ID entry,
            activeOrder := prependUnique t.activeOrder run.ID },
          true, false)

/-- The update both existing-entry branches of Upsert perform on the stored
record: replace the run, and adopt the supplied source exactly when the
existing source kind is unknown and the supplied kind is known. -/
def mergeEntry (existing : TrackedRun) (run : WorkflowRun) (source : Parsed) :
    TrackedRun :=
  if existing.Source.Kind = KindUnknown ∧ source.Kind ≠ KindUnknown then
    { existing with Run := run, Source := source }
  else
    { existing with Run := run }

/-- Go Tracker.Archive: move a run out of the active list, stamping
ArchivedAt with the explicit now parameter (time.Now() in the source). -/
def Tracker.Archive (t : Tracker) (id : Int64) (now : Time) : Tracker × Bool :=
  match mfind t.active id with
  | none => (t, false)
  | some run =>
      ({ t with
          active := merase t.active id,
          activeOrder := removeID t.activeOrder id,
          archived := minsert t.archived id { run with ArchivedAt := now },
          archivedOrder := prependUnique t.archivedOrder id },
        true)

/-- Go Tracker.Unarchive: move a run back to the active list. -/
def Tracker.Unarchive (t : Tracker) (id : Int64) : Tracker × Bool :=
  match mfind t.archived id with
  | none => (t, false)
  | some run =>
      ({ t with
          archived := merase t.archived id,
          archivedOrder := removeID t.archivedOrder id,
          active := minsert t.active id run,
          activeOrder := prependUnique t.activeOrder id },
        true)

/-- Go Tracker.VisibleRuns: the runs in display order. -/
def Tracker.VisibleRuns (t : Tracker) (showArchived : Bool) : List TrackedRun :=
  if showArchived then collectRuns t.archivedOrder t.archived
  else collectRuns t.activeOrder t.active

/-- Go Tracker.IDs: the IDs in display order (the source returns
slices.Clone of the order, which is the identity at the value level;
the aliasing content of the clone is treated in the reference model). -/
def Tracker.IDs (t : Tracker) (showArchived : Bool) : List Int64 :=
  if showArchived then t.archivedOrder else t.activeOrder

/-- Go Tracker.LenActive. -/
def Tracker.LenActive (t : Tracker) : Nat := t.activeOrder.length

/-- Go Tracker.LenArchived. -/
def Tracker.LenArchived (t : Tracker) : Nat := t.archivedOrder.length

/-- Go Tracker.ExportState.  The source ranges over the two maps to build
the entry slices; map iteration order is unspecified in Go, so the two
enumerations are explicit parameters, constrained by the theorems to be
permutations of the map values.  The order slices are returned as clones,
which at the value level is the identity. -/
def Tracker.ExportState (t : Tracker) (activeEnum archivedEnum : List TrackedRun) :
    List TrackedRun × List Int64 × List TrackedRun × List Int64 :=
  (activeEnum, t.activeOrder, archivedEnum, t.archivedOrder)

/-- Rebuild a map from an entry slice: the loop m[run.Run.ID] = run. -/
def buildMap (entries : List TrackedRun) : RunMap :=
  entries.foldl (fun m run => minsert m run.Run.ID run) []

/-- Go Tracker.ImportState: fully replace the catalogs and orders. -/
def Tracker.ImportState (_t : Tracker) (active : List TrackedRun)
    (activeOrder : List Int64) (archived : List TrackedRun)
    (archivedOrder : List Int64) : Tracker :=
  { activeOrder := activeOrder,
    archivedOrder := archivedOrder,
    active := buildMap active,
    archived := buildMap archived }

/-! Reference-level model of slice aliasing.  A Heap is an arena of int64
slice contents; a Go slice value is an index into the arena; writing
through a slice mutates its arena cell; slices.Clone allocates a fresh
cell with the same contents.  This model is used only for the claims about
the slices.Clone calls of ExportState, ImportState and IDs. -/

/-- Arena of slice backing arrays. -/
abbrev Heap := List (List Int64)

/-- Read the contents of the slice r (an out-of-range reference reads as
the empty slice, matching a nil slice). -/
def heapGet : Heap → Nat → List Int64
  | [], _ => []
  | c :: _, 0 => c
  | _ :: rest, n + 1 => heapGet rest n

/-- Overwrite the contents of the slice r (a mutation through the slice). -/
def heapSet : Heap → Nat → List Int64 → Heap
  | [], _, _ => []
  | _ :: rest, 0, v => v :: rest
  | c :: rest, n + 1, v => c :: heapSet rest n v

/-- Allocate a fresh slice holding v; returns the heap and the new reference. -/
def heapAlloc (h : Heap) (v : List Int64) : Heap × Nat :=
  (h ++ [v], h.length)

/-- Go slices.Clone: allocate a fresh backing array with the same contents. -/
def sliceClone (h : Heap) (r : Nat) : Heap × Nat :=
  heapAlloc h (heapGet h r)

/-- The tracker at the reference level: the two order slices are heap
references, the maps are as in the value model. -/
structure RTracker where
  activeOrderRef : Nat
  archivedOrderRef : Nat
  active : RunMap
  archived : RunMap

/-- Dereference the order slices: the value-level tracker an RTracker
denotes in a heap.  All observations (VisibleRuns, IDs, LenActive,
LenArchived) factor through this view. -/
def RTracker.view (t : RTracker) (h : Heap) : Tracker :=
  { activeOrder := heapGet h t.activeOrderRef,
    archivedOrder := heapGet h t.archivedOrderRef,
    active := t.active,
    archived := t.archived }

/-- Go Tracker.ExportState at the reference level: the two order slices are
returned as clones (fresh references), the entry slices as in the value
model. -/
def RTracker.ExportState (t : RTracker) (h : Heap)
    (activeEnum archivedEnum : List TrackedRun) :
    (List TrackedRun × Nat × List TrackedRun × Nat) × Heap :=
  let c1 := sliceClone h t.activeOrderRef
  let c2 := sliceClone c1.1 t.archivedOrderRef
  ((activeEnum, c1.2, archivedEnum, c2.2), c2.1)

/-- Go Tracker.ImportState at the reference level: the tracker stores
clones of the two order slices it is given. -/
def RTracker.ImportState (_t : RTracker) (h : Heap)
    (active : List TrackedRun) (activeOrderRef : Nat)
    (archived : List TrackedRun) (archivedOrderRef : Nat) : RTracker × Heap :=
  let c1 := sliceClone h activeOrderRef
  let c2 := sliceClone c1.1 archivedOrderRef
  ({ activeOrderRef := c1.2,
     archivedOrderRef := c2.2,
     active := buildMap active,
     archived := buildMap archived }, c2.1)

/-- Go Tracker.IDs at the reference level: returns a clone of the chosen
order slice. -/
def RTracker.IDs (t : RTracker) (h : Heap) (showArchived : Bool) : Nat × Heap :=
  if showArchived then
    let c := sliceClone h t.archivedOrderRef
    (c.2, c.1)
  else
    let c := sliceClone h t.activeOrderRef
    (c.2, c.1)

/-- States reachable from NewTracker by Upsert, Archive and Unarchive. -/
inductive Reachable : Tracker → Prop
  | new : Reachable NewTracker
  | upsert (t : Tracker) (run : WorkflowRun) (source : Parsed) (now : Time) :
      Reachable t → Reachable (t.Upsert run source now).1
  | archive (t : Tracker) (id : Int64) (now : Time) :
      Reachable t → Reachable (t.Archive id now).1
  | unarchive (t : Tracker) (id : Int64) :
      Reachable t → Reachable (t.Unarchive id).1

/-- The structural invariant of the tracker catalogs. -/
structure Inv (t : Tracker) : Prop where
  activeKeysNodup : (mkeys t.active).Nodup
  archivedKeysNodup : (mkeys t.archived).Nodup
  activeKeyID : ∀ k e, (k, e) ∈ t.active → e.Run.ID = k
  archivedKeyID : ∀ k e, (k, e) ∈ t.archived → e.Run.ID = k
  activeOrderNodup : t.activeOrder.Nodup
  archivedOrderNodup : t.archivedOrder.Nodup
  activeOrderKeys : ∀ k, k ∈ t.activeOrder ↔ k ∈ mkeys t.active
  archivedOrderKeys : ∀ k, k ∈ t.archivedOrder ↔ k ∈ mkeys t.archived
  disjoint : ∀ k, k ∈ mkeys t.active → k ∉ mkeys t.archived

/-- Look a run up in whichever catalog currently holds it (active first,
as Upsert does).  Used to state the frame properties about AddedAt. -/
def findRun (t : Tracker) (id : Int64) : Option TrackedRun :=
  match mfind t.active id with
  | some e => some e
  | none => mfind t.archived id

/-- Run a sequence of Upsert calls, collecting the (newRun, statusChanged)
results in order. -/
def upsertSeq : List (WorkflowRun × Parsed × Time) → Tracker →
    Tracker × List (Bool × Bool)
  | [], t => (t, [])
  | (run, source, now) :: rest, t =>
      let r := t.Upsert run source now
      let rs := upsertSeq rest r.1
      (rs.1, r.2 :: rs.2)

/-- A concrete normalized run record with the given ID and status (all
other fields zero values, as the tracker tests of the source build them). -/
def sampleRun (id : Int64) (status : RunStatus) : WorkflowRun :=
  { ID := id, Name := "", WorkflowName := "", RepoFullName := "",
    Target := "", TargetURL := "", Status := status, StatusDetail := "",
    HTMLURL := "", HeadBranch := "", HeadSHA := "", Event := "",
    PRNumber := 0, PRURL := "", LastUpdatedAt := 0 }

/-- The zero-valued source descriptor (Kind unknown). -/
def noSource : Parsed :=
  { Kind := KindUnknown, Owner := "", Repo := "", RunID := 0,
    PRNumber := 0, SHA := "", RawURL := "" }

/-- A concrete commit source descriptor. -/
def commitSource : Parsed :=
  { Kind := KindCommit, Owner := "owner", Repo := "repo", RunID := 0,
    PRNumber := 0, SHA := "abc", RawURL := "" }

/-- The tracked entry created by the first Upsert of run 42 (pending). -/
def entry42pending : TrackedRun :=
  { Run := sampleRun 42 RunStatusPending, Source := noSource,
    AddedAt := 0, ArchivedAt := 0 }

/-- The tracked entry of run 42 after Archive at time 1. -/
def entry42archived : TrackedRun :=
  { Run := sampleRun 42 RunStatusPending, Source := noSource,
    AddedAt := 0, ArchivedAt := 1 }

/-- Scenario of §8: after Upsert of run 42 (pending). -/
def scenario42a : Tracker :=
  (NewTracker.Upsert (sampleRun 42 RunStatusPending) noSource 0).1

/-- Scenario of §8: after Upsert of run 42 (pending) then Archive(42). -/
def scenario42b : Tracker :=
  (scenario42a.Archive 42 1).1

/-- Scenario of §8: the full result of the revival Upsert of run 42
(success) on scenario42b. -/
def scenario42c : Tracker × Bool × Bool :=
  scenario42b.Upsert (sampleRun 42 RunStatusSuccess) noSource 2

/-- A tracker state produced by ImportState in which run 42 sits in both
catalogs at once (ImportState performs no validation). -/
def trackerBoth : Tracker :=
  Tracker.ImportState NewTracker
    [{ Run := sampleRun 42 RunStatusPending, Source := noSource,
       AddedAt := 0, ArchivedAt := 0 }] [42]
    [{ Run := sampleRun 42 RunStatusPending, Source := noSource,
       AddedAt := 0, ArchivedAt := 5 }] [42]

/-- A tracker state produced by ImportState with a dangling active order
entry (id 99 has no map entry). -/
def trackerDangling : Tracker :=
  Tracker.ImportState NewTracker
    [{ Run := sampleRun 1 RunStatusPending, Source := noSource,
       AddedAt := 0, ArchivedAt := 0 }] [1, 99] [] []

/-- A concrete two-cell heap for the reference-level witnesses. -/
def sampleHeap : Heap := [[42], []]

/-- A concrete reference tracker whose order slices are the two cells of
sampleHeap. -/
def sampleRT : RTracker :=
  { activeOrderRef := 0, archivedOrderRef := 1,
    active := [(42, entry42pending)], archived := [] }

/-- State after upserting runs 1, 2, 3 (pending) in that order. -/
def tracker123 : Tracker :=
  (((NewTracker.Upsert (sampleRun 1 RunStatusPending) noSource 0).1.Upsert
      (sampleRun 2 RunStatusPending) noSource 1).1.Upsert
      (sampleRun 3 RunStatusPending) noSource 2).1

/-! Lemmas about the association-list map model. -/

theorem mkeys_cons (k : Int64) (v : TrackedRun) (m : RunMap) :
    mkeys ((k, v) :: m) = k :: mkeys m := rfl

theorem mvalues_cons (k : Int64) (v : TrackedRun) (m : RunMap) :
    mvalues ((k, v) :: m) = v :: mvalues m := rfl

theorem mfind_eq_none_iff (m : RunMap) (k : Int64) :
    mfind m k = none ↔ k ∉ mkeys m := by
  induction m with
  | nil => simp [mfind, mkeys]
  | cons p rest ih =>
      obtain ⟨k0, v0⟩ := p
      by_cases hk : k0 = k
      · subst hk; simp [mfind, mkeys_cons]
      · simp [mfind, mkeys_cons, hk, ih, Ne.symm hk]

theorem mfind_isSome_iff (m : RunMap) (k : Int64) :
    (mfind m k).isSome = true ↔ k ∈ mkeys m := by
  rw [Option.isSome_iff_ne_none, ne_eq, mfind_eq_none_iff, not_not]

theorem mfind_mem (m : RunMap) (k : Int64) (v : TrackedRun)
    (h : mfind m k = some v) : (k, v) ∈ m := by
  induction m with
  | nil => simp [mfind] at h
  | cons p rest ih =>
      obtain ⟨k0, v0⟩ := p
      by_cases hk : k0 = k
      · subst hk
        simp [mfind] at h
        simp [h]
      · simp [mfind, hk] at h
        simp [ih h]

theorem mfind_eq_some_of_mem (m : RunMap) (k : Int64) (v : TrackedRun)
    (hnd : (mkeys m).Nodup) (h : (k, v) ∈ m) : mfind m k = some v := by
  induction m with
  | nil => simp at h
  | cons p rest ih =>
      obtain ⟨k0, v0⟩ := p
      rw [mkeys_cons, List.nodup_cons] at hnd
      rcases List.mem_cons.mp h with heq | hrest
      · rw [Prod.mk.injEq] at heq
        simp [mfind, heq.1, heq.2]
      · have hk : k0 ≠ k := by
          intro hkeq
          subst hkeq
          exact hnd.1 (by simpa [mkeys] using List.mem_map_of_mem Prod.fst hrest)
        simp [mfind, hk]
        exact ih hnd.2 hrest

theorem mfind_minsert (m : RunMap) (key : Int64) (v : TrackedRun) (k : Int64) :
    mfind (minsert m key v) k = if k = key then some v else mfind m k := by
  induction m with
  | nil =>
      by_cases h : k = key
      · simp [minsert, mfind, h]
      · simp [minsert, mfind, h, Ne.symm h]
  | cons p rest ih =>
      obtain ⟨k0, w⟩ := p
      by_cases h0 : k0 = key
      · subst h0
        by_cases h : k = k0
        · simp [minsert, mfind, h]
        · simp [minsert, mfind, h, Ne.symm h]
      · by_cases h : k0 = k
        · subst h
          have : ¬ k0 = key := h0
          simp [minsert, mfind, h0, this]
        · simp [minsert, mfind, h0, h, ih]

theorem mfind_merase (m : RunMap) (key : Int64) (k : Int64) :
    mfind (merase m key) k = if k = key then none else mfind m k := by
  induction m with
  | nil => simp [merase, mfind]
  | cons p rest ih =>
      obtain ⟨k0, w⟩ := p
      by_cases h0 : k0 = key
      · subst h0
        by_cases h : k = k0
        · subst h
          simp [merase, mfind, ih]
        · simp [merase, mfind, h, Ne.symm h, ih]
      · by_cases h : k0 = k
        · subst h
          have hkey : ¬ k0 = key := h0
          simp [merase, mfind, h0, hkey]
        · simp [merase, mfind, h0, h, ih]

theorem minsert_of_not_mem (m : RunMap) (key : Int64) (v : TrackedRun)
    (h : key ∉ mkeys m) : minsert m key v = m ++ [(key, v)] := by
  induction m with
  | nil => simp [minsert]
  | cons p rest ih =>
      obtain ⟨k0, w⟩ := p
      rw [mkeys_cons, List.mem_cons, not_or] at h
      have h1 : ¬ k0 = key := fun hc => h.1 hc.symm
      simp [minsert, h1, ih h.2]

theorem mkeys_minsert_of_mem (m : RunMap) (key : Int64) (v : TrackedRun)
    (h : key ∈ mkeys m) : mkeys (minsert m key v) = mkeys m := by
  induction m with
  | nil => simp [mkeys] at h
  | cons p rest ih =>
      obtain ⟨k0, w⟩ := p
      by_cases h0 : k0 = key
      · subst h0; simp [minsert, mkeys_cons]
      · rw [mkeys_cons, List.mem_cons] at h
        have h2 : key ∈ mkeys rest := by
          rcases h with h | h
          · exact absurd h.symm h0
          · exact h
        simp [minsert, mkeys_cons, h0, ih h2]

theorem mkeys_minsert_of_not_mem (m : RunMap) (key : Int64) (v : TrackedRun)
    (h : key ∉ mkeys m) : mkeys (minsert m key v) = mkeys m ++ [key] := by
  rw [minsert_of_not_mem m key v h]
  simp [mkeys]

theorem mkeys_merase (m : RunMap) (key : Int64) :
    mkeys (merase m key) = (mkeys m).filter fun k => decide (k ≠ key) := by
  induction m with
  | nil => simp [merase, mkeys]
  | cons p rest ih =>
      obtain ⟨k0, w⟩ := p
      by_cases h0 : k0 = key
      · subst h0
        rw [mkeys_cons, List.filter_cons]
        simp [merase, ih]
      · simp only [merase, if_neg h0]
        rw [mkeys_cons, ih, mkeys_cons, List.filter_cons]
        simp [h0]

theorem mem_merase_mkeys (m : RunMap) (key k : Int64) :
    k ∈ mkeys (merase m key) ↔ k ∈ mkeys m ∧ k ≠ key := by
  rw [mkeys_merase]
  simp

theorem mem_minsert (m : RunMap) (key : Int64) (v : TrackedRun)
    (k : Int64) (e : TrackedRun) (h : (k, e) ∈ minsert m key v) :
    (k, e) ∈ m ∨ (k = key ∧ e = v) := by
  induction m with
  | nil =>
      simp only [minsert, List.mem_singleton, Prod.mk.injEq] at h
      exact Or.inr h
  | cons p rest ih =>
      obtain ⟨k0, w⟩ := p
      by_cases h0 : k0 = key
      · subst h0
        simp only [minsert, if_pos rfl] at h
        rcases List.mem_cons.mp h with heq | hrest
        · rw [Prod.mk.injEq] at heq
          exact Or.inr ⟨heq.1, heq.2⟩
        · exact Or.inl (List.mem_cons_of_mem _ hrest)
      · simp only [minsert, if_neg h0] at h
        rcases List.mem_cons.mp h with heq | hrest
        · exact Or.inl (List.mem_cons.mpr (Or.inl heq))
        · rcases ih hrest with hm | hkey
          · exact Or.inl (List.mem_cons_of_mem _ hm)
          · exact Or.inr hkey

theorem mem_merase (m : RunMap) (key : Int64) (k : Int64) (e : TrackedRun)
    (h : (k, e) ∈ merase m key) : (k, e) ∈ m := by
  induction m with
  | nil => simp [merase] at h
  | cons p rest ih =>
      obtain ⟨k0, w⟩ := p
      by_cases h0 : k0 = key
      · subst h0
        simp only [merase, if_pos rfl] at h
        exact List.mem_cons_of_mem _ (ih h)
      · simp only [merase, if_neg h0] at h
        rcases List.mem_cons.mp h with heq | hrest
        · exact List.mem_cons.mpr (Or.inl heq)
        · exact List.mem_cons_of_mem _ (ih hrest)

/-! Lemmas about the order-sequence helpers. -/

theorem mem_removeID (l : List Int64) (id k : Int64) :
    k ∈ removeID l id ↔ k ∈ l ∧ k ≠ id := by
  simp [removeID, List.mem_filter]

theorem nodup_removeID (l : List Int64) (id : Int64) (h : l.Nodup) :
    (removeID l id).Nodup :=
  List.Nodup.filter _ h

theorem not_mem_removeID_self (l : List Int64) (id : Int64) :
    id ∉ removeID l id := by
  simp [mem_removeID]

theorem removeID_eq_self (l : List Int64) (id : Int64) (h : id ∉ l) :
    removeID l id = l := by
  apply List.filter_eq_self.mpr
  intro a ha
  simp only [ne_eq, decide_eq_true_eq]
  intro hc
  subst hc
  exact h ha

theorem mem_prependUnique (l : List Int64) (id k : Int64) :
    k ∈ prependUnique l id ↔ k = id ∨ k ∈ l := by
  by_cases hk : k = id
  · simp [prependUnique, hk]
  · simp [prependUnique, hk, mem_removeID]

theorem nodup_prependUnique (l : List Int64) (id : Int64) (h : l.Nodup) :
    (prependUnique l id).Nodup :=
  List.nodup_cons.mpr ⟨not_mem_removeID_self l id, nodup_removeID l id h⟩

theorem head_prependUnique (l : List Int64) (id : Int64) :
    (prependUnique l id).head? = some id := rfl

/-! Lemmas about collectRuns. -/

theorem collectRuns_eq_filterMap (order : List Int64) (m : RunMap) :
    collectRuns order m = order.filterMap fun id => mfind m id := by
  induction order with
  | nil => simp [collectRuns]
  | cons id rest ih =>
      rw [List.filterMap_cons]
      cases h : mfind m id with
      | none => simp [collectRuns, h, ih]
      | some run => simp [collectRuns, h, ih]

theorem collectRuns_congr (order : List Int64) (m1 m2 : RunMap)
    (h : ∀ id, mfind m1 id = mfind m2 id) :
    collectRuns order m1 = collectRuns order m2 := by
  rw [collectRuns_eq_filterMap, collectRuns_eq_filterMap]
  exact List.filterMap_congr fun id _ => h id

/-! Lemmas about buildMap: rebuilding a map from an entry slice. -/

theorem foldl_minsert_append (es : List TrackedRun) (m : RunMap)
    (hdisj : ∀ e ∈ es, e.Run.ID ∉ mkeys m)
    (hnd : (es.map fun e => e.Run.ID).Nodup) :
    es.foldl (fun acc run => minsert acc run.Run.ID run) m =
      m ++ es.map fun e => (e.Run.ID, e) := by
  induction es generalizing m with
  | nil => simp
  | cons e rest ih =>
      rw [List.map_cons, List.nodup_cons] at hnd
      have hem : e.Run.ID ∉ mkeys m := hdisj e (List.mem_cons_self e rest)
      have hstep : minsert m e.Run.ID e = m ++ [(e.Run.ID, e)] :=
        minsert_of_not_mem m e.Run.ID e hem
      have hdisj2 : ∀ x ∈ rest, x.Run.ID ∉ mkeys (m ++ [(e.Run.ID, e)]) := by
        intro x hx
        have hkeys : mkeys (m ++ [(e.Run.ID, e)]) = mkeys m ++ [e.Run.ID] := by
          simp [mkeys]
        rw [hkeys]
        intro hc
        rcases List.mem_append.mp hc with hc | hc
        · exact hdisj x (List.mem_cons_of_mem _ hx) hc
        · exact hnd.1 (by
            rcases List.mem_singleton.mp hc with hc
            exact hc ▸ List.mem_map_of_mem (fun e => e.Run.ID) hx)
      calc (e :: rest).foldl (fun acc run => minsert acc run.Run.ID run) m
          = rest.foldl (fun acc run => minsert acc run.Run.ID run)
              (m ++ [(e.Run.ID, e)]) := by rw [List.foldl_cons, hstep]
        _ = m ++ [(e.Run.ID, e)] ++ rest.map (fun x => (x.Run.ID, x)) :=
            ih _ hdisj2 hnd.2
        _ = m ++ (e :: rest).map fun x => (x.Run.ID, x) := by simp

theorem buildMap_eq (es : List TrackedRun)
    (hnd : (es.map fun e => e.Run.ID).Nodup) :
    buildMap es = es.map fun e => (e.Run.ID, e) := by
  have := foldl_minsert_append es [] (by simp [mkeys]) hnd
  simpa [buildMap] using this

theorem mvalues_map_ID (m : RunMap)
    (hid : ∀ k e, (k, e) ∈ m → e.Run.ID = k) :
    ((mvalues m).map fun e => e.Run.ID) = mkeys m := by
  induction m with
  | nil => simp [mvalues, mkeys]
  | cons p rest ih =>
      obtain ⟨k0, v0⟩ := p
      rw [mvalues_cons, mkeys_cons, List.map_cons]
      rw [hid k0 v0 (List.mem_cons_self _ _)]
      rw [ih fun k e he => hid k e (List.mem_cons_of_mem _ he)]

/-- Lookup in a map rebuilt from any permutation of the values of a
well-formed map agrees with lookup in the original map. -/
theorem mfind_buildMap (m : RunMap) (es : List TrackedRun)
    (hnd : (mkeys m).Nodup)
    (hid : ∀ k e, (k, e) ∈ m → e.Run.ID = k)
    (hperm : es.Perm (mvalues m)) (k : Int64) :
    mfind (buildMap es) k = mfind m k := by
  have hids : (es.map fun e => e.Run.ID).Perm (mkeys m) :=
    (mvalues_map_ID m hid) ▸ hperm.map fun e => e.Run.ID
  have hesnd : (es.map fun e => e.Run.ID).Nodup := hids.nodup_iff.mpr hnd
  have hbuild : buildMap es = es.map fun e => (e.Run.ID, e) := buildMap_eq es hesnd
  have hbkeys : mkeys (buildMap es) = es.map fun e => e.Run.ID := by
    rw [hbuild]
    simp [mkeys, Function.comp]
  cases hm : mfind m k with
  | none =>
      rw [mfind_eq_none_iff] at hm
      rw [mfind_eq_none_iff, hbkeys]
      intro hc
      exact hm (hids.mem_iff.mp hc)
  | some v =>
      have hmem : (k, v) ∈ m := mfind_mem m k v hm
      have hvid : v.Run.ID = k := hid k v hmem
      have hvmem : v ∈ mvalues m := by
        simpa [mvalues] using List.mem_map_of_mem Prod.snd hmem
      have hves : v ∈ es := hperm.mem_iff.mpr hvmem
      have hpair : (k, v) ∈ buildMap es := by
        rw [hbuild]
        have := List.mem_map_of_mem (fun e => (e.Run.ID, e)) hves
        simpa [hvid] using this
      exact mfind_eq_some_of_mem _ k v (by rw [hbkeys]; exact hesnd) hpair

/-! Lemmas about the heap model. -/

theorem heapGet_set_ne (h : Heap) (r s : Nat) (v : List Int64)
    (hne : r ≠ s) : heapGet (heapSet h r v) s = heapGet h s := by
  induction h generalizing r s with
  | nil => simp [heapSet]
  | cons c rest ih =>
      cases r with
      | zero =>
          cases s with
          | zero => exact absurd rfl hne
          | succ n => simp [heapSet, heapGet]
      | succ m =>
          cases s with
          | zero => simp [heapSet, heapGet]
          | succ n =>
              simp only [heapSet, heapGet]
              exact ih m n fun hc => hne (by rw [hc])

theorem heapGet_append_lt (h : Heap) (v : List Int64) (r : Nat)
    (hr : r < h.length) : heapGet (h ++ [v]) r = heapGet h r := by
  induction h generalizing r with
  | nil => simp at hr
  | cons c rest ih =>
      cases r with
      | zero => simp [heapGet]
      | succ n =>
          simp only [List.cons_append, heapGet]
          exact ih n (by simpa using hr)

theorem heapGet_append_len (h : Heap) (v : List Int64) :
    heapGet (h ++ [v]) h.length = v := by
  induction h with
  | nil => simp [heapGet]
  | cons c rest ih => simpa [heapGet] using ih

/-! Characterizations of the tracker operations, one per source branch. -/

theorem mergeEntry_Run (e : TrackedRun) (run : WorkflowRun) (source : Parsed) :
    (mergeEntry e run source).Run = run := by
  rw [mergeEntry]
  split <;> rfl

theorem mergeEntry_AddedAt (e : TrackedRun) (run : WorkflowRun)
    (source : Parsed) : (mergeEntry e run source).AddedAt = e.AddedAt := by
  rw [mergeEntry]
  split <;> rfl

theorem mergeEntry_ArchivedAt (e : TrackedRun) (run : WorkflowRun)
    (source : Parsed) : (mergeEntry e run source).ArchivedAt = e.ArchivedAt := by
  rw [mergeEntry]
  split <;> rfl

theorem mergeEntry_Source (e : TrackedRun) (run : WorkflowRun)
    (source : Parsed) :
    (mergeEntry e run source).Source =
      if e.Source.Kind = KindUnknown ∧ source.Kind ≠ KindUnknown then source
      else e.Source := by
  rw [mergeEntry]
  split <;> rfl

theorem upsert_active_eq (t : Tracker) (run : WorkflowRun) (source : Parsed)
    (now : Time) (e : TrackedRun) (h : mfind t.active run.ID = some e) :
    t.Upsert run source now =
      ({ t with active := minsert t.active run.ID (mergeEntry e run source) },
        false, decide (e.Run.Status ≠ run.Status)) := by
  rw [Tracker.Upsert, h, mergeEntry]

theorem upsert_archived_eq (t : Tracker) (run : WorkflowRun) (source : Parsed)
    (now : Time) (e : TrackedRun) (ha : mfind t.active run.ID = none)
    (h : mfind t.archived run.ID = some e) :
    t.Upsert run source now =
      ({ t with
          archived := merase t.archived run.ID,
          archivedOrder := removeID t.archivedOrder run.ID,
          active := minsert t.active run.ID (mergeEntry e run source),
          activeOrder := prependUnique t.activeOrder run.ID },
        true, decide (e.Run.Status ≠ run.Status)) := by
  rw [Tracker.Upsert, ha, h, mergeEntry]

theorem upsert_new_eq (t : Tracker) (run : WorkflowRun) (source : Parsed)
    (now : Time) (ha : mfind t.active run.ID = none)
    (hb : mfind t.archived run.ID = none) :
    t.Upsert run source now =
      ({ t with
          active := minsert t.active run.ID
            { Run := run, Source := source, AddedAt := now, ArchivedAt := 0 },
          activeOrder := prependUnique t.activeOrder run.ID },
        true, false) := by
  rw [Tracker.Upsert, ha, hb]

theorem archive_none_eq (t : Tracker) (id : Int64) (now : Time)
    (h : mfind t.active id = none) : t.Archive id now = (t, false) := by
  rw [Tracker.Archive, h]

theorem archive_some_eq (t : Tracker) (id : Int64) (now : Time)
    (e : TrackedRun) (h : mfind t.active id = some e) :
    t.Archive id now =
      ({ t with
          active := merase t.active id,
          activeOrder := removeID t.activeOrder id,
          archived := minsert t.archived id { e with ArchivedAt := now },
          archivedOrder := prependUnique t.archivedOrder id },
        true) := by
  rw [Tracker.Archive, h]

theorem unarchive_none_eq (t : Tracker) (id : Int64)
    (h : mfind t.archived id = none) : t.Unarchive id = (t, false) := by
  rw [Tracker.Unarchive, h]

theorem unarchive_some_eq (t : Tracker) (id : Int64) (e : TrackedRun)
    (h : mfind t.archived id = some e) :
    t.Unarchive id =
      ({ t with
          archived := merase t.archived id,
          archivedOrder := removeID t.archivedOrder id,
          active := minsert t.active id e,
          activeOrder := prependUnique t.activeOrder id },
        true) := by
  rw [Tracker.Unarchive, h]

theorem mem_mkeys_of_mfind (m : RunMap) (k : Int64) (v : TrackedRun)
    (h : mfind m k = some v) : k ∈ mkeys m := by
  simpa [mkeys] using List.mem_map_of_mem Prod.fst (mfind_mem m k v h)

/-! Preservation of the structural invariant. -/

theorem nodup_mkeys_append_single (m : RunMap) (id : Int64)
    (hnd : (mkeys m).Nodup) (hmem : id ∉ mkeys m) :
    (mkeys m ++ [id]).Nodup := by
  rw [List.nodup_append]
  exact ⟨hnd, List.nodup_singleton id, by
    intro x hx hx'
    rw [List.mem_singleton] at hx'
    exact hmem (hx' ▸ hx)⟩

theorem nodup_mkeys_merase (m : RunMap) (id : Int64)
    (hnd : (mkeys m).Nodup) : (mkeys (merase m id)).Nodup := by
  rw [mkeys_merase]
  exact List.Nodup.filter _ hnd

/-- A helper for the moving branches: inserting an entry whose run ID is the
key preserves the key-identity property. -/
theorem keyID_minsert (m : RunMap) (id : Int64) (v : TrackedRun)
    (hid : ∀ k e, (k, e) ∈ m → e.Run.ID = k) (hv : v.Run.ID = id) :
    ∀ k e, (k, e) ∈ minsert m id v → e.Run.ID = k := by
  intro k e he
  rcases mem_minsert m id v k e he with hm | ⟨hk, hv'⟩
  · exact hid k e hm
  · rw [hv', hk, hv]

theorem keyID_merase (m : RunMap) (id : Int64)
    (hid : ∀ k e, (k, e) ∈ m → e.Run.ID = k) :
    ∀ k e, (k, e) ∈ merase m id → e.Run.ID = k :=
  fun k e he => hid k e (mem_merase m id k e he)

theorem inv_new : Inv NewTracker := by
  constructor <;> simp [NewTracker, mkeys]

theorem inv_upsert (t : Tracker) (run : WorkflowRun) (source : Parsed)
    (now : Time) (inv : Inv t) : Inv (t.Upsert run source now).1 := by
  cases ha : mfind t.active run.ID with
  | some e =>
      rw [upsert_active_eq t run source now e ha]
      have hmem : run.ID ∈ mkeys t.active := mem_mkeys_of_mfind _ _ _ ha
      have hkeys : mkeys (minsert t.active run.ID (mergeEntry e run source)) =
          mkeys t.active := mkeys_minsert_of_mem _ _ _ hmem
      constructor
      · rw [hkeys]; exact inv.activeKeysNodup
      · exact inv.archivedKeysNodup
      · exact keyID_minsert _ _ _ inv.activeKeyID (by rw [mergeEntry_Run])
      · exact inv.archivedKeyID
      · exact inv.activeOrderNodup
      · exact inv.archivedOrderNodup
      · intro k; rw [hkeys]; exact inv.activeOrderKeys k
      · exact inv.archivedOrderKeys
      · intro k hk; rw [hkeys] at hk; exact inv.disjoint k hk
  | none =>
    have hna : run.ID ∉ mkeys t.active := (mfind_eq_none_iff _ _).mp ha
    cases hb : mfind t.archived run.ID with
    | some e =>
        rw [upsert_archived_eq t run source now e ha hb]
        have hkeys : mkeys (minsert t.active run.ID (mergeEntry e run source)) =
            mkeys t.active ++ [run.ID] := mkeys_minsert_of_not_mem _ _ _ hna
        constructor
        · rw [hkeys]
          exact nodup_mkeys_append_single _ _ inv.activeKeysNodup hna
        · exact nodup_mkeys_merase _ _ inv.archivedKeysNodup
        · exact keyID_minsert _ _ _ inv.activeKeyID (by rw [mergeEntry_Run])
        · exact keyID_merase _ _ inv.archivedKeyID
        · exact nodup_prependUnique _ _ inv.activeOrderNodup
        · exact nodup_removeID _ _ inv.archivedOrderNodup
        · intro k
          rw [hkeys]
          simp [mem_prependUnique, inv.activeOrderKeys k, List.mem_append, or_comm]
        · intro k
          rw [mem_merase_mkeys]
          simp [mem_removeID, inv.archivedOrderKeys k]
        · intro k hk
          rw [hkeys, List.mem_append] at hk
          rw [mem_merase_mkeys]
          rcases hk with hk | hk
          · intro hc
            exact inv.disjoint k hk hc.1
          · rw [List.mem_singleton] at hk
            subst hk
            intro hc
            exact hc.2 rfl
    | none =>
        rw [upsert_new_eq t run source now ha hb]
        have hnb : run.ID ∉ mkeys t.archived := (mfind_eq_none_iff _ _).mp hb
        have hkeys : mkeys (minsert t.active run.ID
            { Run := run, Source := source, AddedAt := now, ArchivedAt := 0 }) =
            mkeys t.active ++ [run.ID] := mkeys_minsert_of_not_mem _ _ _ hna
        constructor
        · rw [hkeys]
          exact nodup_mkeys_append_single _ _ inv.activeKeysNodup hna
        · exact inv.archivedKeysNodup
        · exact keyID_minsert _ _ _ inv.activeKeyID rfl
        · exact inv.archivedKeyID
        · exact nodup_prependUnique _ _ inv.activeOrderNodup
        · exact inv.archivedOrderNodup
        · intro k
          rw [hkeys]
          simp [mem_prependUnique, inv.activeOrderKeys k, List.mem_append, or_comm]
        · exact inv.archivedOrderKeys
        · intro k hk
          rw [hkeys, List.mem_append] at hk
          rcases hk with hk | hk
          · exact inv.disjoint k hk
          · rw [List.mem_singleton] at hk
            subst hk
            exact hnb

theorem inv_archive (t : Tracker) (id : Int64) (now : Time)
    (inv : Inv t) : Inv (t.Archive id now).1 := by
  cases h : mfind t.active id with
  | none => rw [archive_none_eq t id now h]; exact inv
  | some e =>
      rw [archive_some_eq t id now e h]
      have hmem : id ∈ mkeys t.active := mem_mkeys_of_mfind _ _ _ h
      have hnb : id ∉ mkeys t.archived := inv.disjoint id hmem
      have heid : e.Run.ID = id := inv.activeKeyID id e (mfind_mem _ _ _ h)
      have hkeys : mkeys (minsert t.archived id { e with ArchivedAt := now }) =
          mkeys t.archived ++ [id] := mkeys_minsert_of_not_mem _ _ _ hnb
      constructor
      · exact nodup_mkeys_merase _ _ inv.activeKeysNodup
      · rw [hkeys]
        exact nodup_mkeys_append_single _ _ inv.archivedKeysNodup hnb
      · exact keyID_merase _ _ inv.activeKeyID
      · exact keyID_minsert _ _ _ inv.archivedKeyID heid
      · exact nodup_removeID _ _ inv.activeOrderNodup
      · exact nodup_prependUnique _ _ inv.archivedOrderNodup
      · intro k
        rw [mem_merase_mkeys]
        simp [mem_removeID, inv.activeOrderKeys k]
      · intro k
        rw [hkeys]
        simp [mem_prependUnique, inv.archivedOrderKeys k, List.mem_append, or_comm]
      · intro k hk
        rw [mem_merase_mkeys] at hk
        rw [hkeys, List.mem_append]
        intro hc
        rcases hc with hc | hc
        · exact inv.disjoint k hk.1 hc
        · rw [List.mem_singleton] at hc
          exact hk.2 hc

theorem inv_unarchive (t : Tracker) (id : Int64)
    (inv : Inv t) : Inv (t.Unarchive id).1 := by
  cases h : mfind t.archived id with
  | none => rw [unarchive_none_eq t id h]; exact inv
  | some e =>
      rw [unarchive_some_eq t id e h]
      have hmem : id ∈ mkeys t.archived := mem_mkeys_of_mfind _ _ _ h
      have hna : id ∉ mkeys t.active := fun hc => inv.disjoint id hc hmem
      have heid : e.Run.ID = id := inv.archivedKeyID id e (mfind_mem _ _ _ h)
      have hkeys : mkeys (minsert t.active id e) = mkeys t.active ++ [id] :=
        mkeys_minsert_of_not_mem _ _ _ hna
      constructor
      · rw [hkeys]
        exact nodup_mkeys_append_single _ _ inv.activeKeysNodup hna
      · exact nodup_mkeys_merase _ _ inv.archivedKeysNodup
      · exact keyID_minsert _ _ _ inv.activeKeyID heid
      · exact keyID_merase _ _ inv.archivedKeyID
      · exact nodup_prependUnique _ _ inv.activeOrderNodup
      · exact nodup_removeID _ _ inv.archivedOrderNodup
      · intro k
        rw [hkeys]
        simp [mem_prependUnique, inv.activeOrderKeys k, List.mem_append, or_comm]
      · intro k
        rw [mem_merase_mkeys]
        simp [mem_removeID, inv.archivedOrderKeys k]
      · intro k hk
        rw [hkeys, List.mem_append] at hk
        rw [mem_merase_mkeys]
        rcases hk with hk | hk
        · intro hc
          exact inv.disjoint k hk hc.1
        · rw [List.mem_singleton] at hk
          subst hk
          intro hc
          exact hc.2 rfl

/-- Every reachable state satisfies the structural invariant. -/
theorem reachable_inv (t : Tracker) (h : Reachable t) : Inv t := by
  induction h with
  | new => exact inv_new
  | upsert t run source now _ ih => exact inv_upsert t run source now ih
  | archive t id now _ ih => exact inv_archive t id now ih
  | unarchive t id _ ih => exact inv_unarchive t id ih

theorem mergeEntry_eq (e : TrackedRun) (run : WorkflowRun) (source : Parsed) :
    mergeEntry e run source =
      { e with
        Run := run
        Source := if e.Source.Kind = KindUnknown ∧ source.Kind ≠ KindUnknown
                  then source else e.Source } := by
  by_cases hc : e.Source.Kind = KindUnknown ∧ source.Kind ≠ KindUnknown
  · rw [mergeEntry, if_pos hc, if_pos hc]
  · rw [mergeEntry, if_neg hc, if_neg hc]

/-! The claim theorems. -/

/-- C1: if run ID r is already in the active catalog, Upsert returns
isNew = false, reports a status change exactly when the stored status
differs from the new one, replaces the stored record (adopting the
supplied source only when the existing source kind is unknown and the
supplied kind is known), and leaves the active order, the archived order
and the archived catalog untouched (in particular the position of r in
the active order is unchanged). -/
theorem upsert_existing_active_spec (t : Tracker) (run : WorkflowRun)
    (source : Parsed) (now : Time) (e : TrackedRun)
    (h : mfind t.active run.ID = some e) :
    (t.Upsert run source now).2.1 = false ∧
    ((t.Upsert run source now).2.2 = true ↔ e.Run.Status ≠ run.Status) ∧
    mfind (t.Upsert run source now).1.active run.ID =
      some { e with
        Run := run
        Source := if e.Source.Kind = KindUnknown ∧ source.Kind ≠ KindUnknown
                  then source else e.Source } ∧
    (t.Upsert run source now).1.activeOrder = t.activeOrder ∧
    (t.Upsert run source now).1.archivedOrder = t.archivedOrder ∧
    (t.Upsert run source now).1.archived = t.archived := by
  rw [upsert_active_eq t run source now e h]
  refine ⟨rfl, by simp, ?_, rfl, rfl, rfl⟩
  show mfind (minsert t.active run.ID (mergeEntry e run source)) run.ID = _
  rw [mfind_minsert, if_pos rfl, mergeEntry_eq]

theorem upsert_existing_active_spec_witness :
    mfind scenario42a.active 42 = some entry42pending ∧
    (scenario42a.Upsert (sampleRun 42 RunStatusSuccess) commitSource 9).2.1 = false :=
  ⟨rfl, (upsert_existing_active_spec scenario42a (sampleRun 42 RunStatusSuccess)
    commitSource 9 entry42pending rfl).1⟩

/-- C2 counterexample: ImportState can produce a tracker state in which run
42 is present in the archived catalog and also in the active catalog; there
Upsert consults the active catalog first and returns isNew = false, so the
claim as stated (over every state in which the run is archived) fails. -/
theorem upsert_archived_claim_counterexample :
    (mfind trackerBoth.archived 42).isSome = true ∧
    (trackerBoth.Upsert (sampleRun 42 RunStatusSuccess) noSource 3).2.1 = false :=
  ⟨rfl, rfl⟩

/-- C2 (amended): if run ID r is in the archived catalog and not in the
active catalog, Upsert returns isNew = true and statusChanged exactly when
the stored status differs; afterwards r is gone from the archived map and
order, present in the active catalog, and first in the active order; and
the concrete scenario Upsert 42 pending, Archive 42, Upsert 42 success
returns (true, true) with one active and no archived run. -/
theorem upsert_archived_spec (t : Tracker) (run : WorkflowRun)
    (source : Parsed) (now : Time) (e : TrackedRun)
    (ha : mfind t.active run.ID = none)
    (hb : mfind t.archived run.ID = some e) :
    (t.Upsert run source now).2.1 = true ∧
    ((t.Upsert run source now).2.2 = true ↔ e.Run.Status ≠ run.Status) ∧
    mfind (t.Upsert run source now).1.archived run.ID = none ∧
    run.ID ∉ (t.Upsert run source now).1.archivedOrder ∧
    mfind (t.Upsert run source now).1.active run.ID =
      some { e with
        Run := run
        Source := if e.Source.Kind = KindUnknown ∧ source.Kind ≠ KindUnknown
                  then source else e.Source } ∧
    (t.Upsert run source now).1.activeOrder.head? = some run.ID ∧
    (scenario42c.2 = (true, true) ∧ scenario42c.1.LenActive = 1 ∧
      scenario42c.1.LenArchived = 0) := by
  rw [upsert_archived_eq t run source now e ha hb]
  refine ⟨rfl, by simp, ?_, ?_, ?_, rfl, rfl, rfl, rfl⟩
  · show mfind (merase t.archived run.ID) run.ID = none
    rw [mfind_merase, if_pos rfl]
  · exact not_mem_removeID_self t.archivedOrder run.ID
  · show mfind (minsert t.active run.ID (mergeEntry e run source)) run.ID = _
    rw [mfind_minsert, if_pos rfl, mergeEntry_eq]

theorem upsert_archived_spec_witness :
    mfind scenario42b.active 42 = none ∧
    mfind scenario42b.archived 42 = some entry42archived ∧
    (scenario42b.Upsert (sampleRun 42 RunStatusSuccess) noSource 2).2.1 = true :=
  ⟨rfl, rfl, (upsert_archived_spec scenario42b (sampleRun 42 RunStatusSuccess)
    noSource 2 entry42archived rfl rfl).1⟩

/-- Helper for C3: a sequence of Upsert calls whose run IDs are fresh for
the tracker (not in either catalog, not in the active order) and pairwise
distinct reports (true, false) for every call, pushes the IDs onto the
front of the active order in reverse call order and leaves the archived
order unchanged. -/
theorem upsertSeq_fresh (calls : List (WorkflowRun × Parsed × Time))
    (t : Tracker)
    (hfresh : ∀ c ∈ calls, mfind t.active c.1.ID = none ∧
      mfind t.archived c.1.ID = none ∧ c.1.ID ∉ t.activeOrder)
    (hnd : (calls.map fun c => c.1.ID).Nodup) :
    (upsertSeq calls t).2 = List.replicate calls.length (true, false) ∧
    (upsertSeq calls t).1.activeOrder =
      (calls.map fun c => c.1.ID).reverse ++ t.activeOrder ∧
    (upsertSeq calls t).1.archivedOrder = t.archivedOrder := by
  induction calls generalizing t with
  | nil => exact ⟨rfl, by simp [upsertSeq], rfl⟩
  | cons c rest ih =>
      obtain ⟨run, source, now⟩ := c
      obtain ⟨ha, hb, ho⟩ := hfresh _ (List.mem_cons_self _ _)
      rw [List.map_cons, List.nodup_cons] at hnd
      have hstep := upsert_new_eq t run source now ha hb
      have horder : prependUnique t.activeOrder run.ID =
          run.ID :: t.activeOrder := by
        rw [prependUnique, removeID_eq_self _ _ ho]
      have hfresh2 : ∀ x ∈ rest,
          mfind (t.Upsert run source now).1.active x.1.ID = none ∧
          mfind (t.Upsert run source now).1.archived x.1.ID = none ∧
          x.1.ID ∉ (t.Upsert run source now).1.activeOrder := by
        intro x hx
        obtain ⟨hxa, hxb, hxo⟩ := hfresh _ (List.mem_cons_of_mem _ hx)
        have hne : x.1.ID ≠ run.ID := by
          intro hc
          exact hnd.1 (hc ▸ List.mem_map_of_mem (fun c => c.1.ID) hx)
        rw [hstep]
        refine ⟨?_, hxb, ?_⟩
        · show mfind (minsert t.active run.ID _) x.1.ID = none
          rw [mfind_minsert, if_neg hne, hxa]
        · show x.1.ID ∉ prependUnique t.activeOrder run.ID
          rw [horder]
          intro hc
          rcases List.mem_cons.mp hc with hc | hc
          · exact hne hc
          · exact hxo hc
      obtain ⟨ih1, ih2, ih3⟩ := ih (t.Upsert run source now).1 hfresh2 hnd.2
      have harch : (t.Upsert run source now).1.archivedOrder =
          t.archivedOrder := by rw [hstep]
      have hact : (t.Upsert run source now).1.activeOrder =
          run.ID :: t.activeOrder := by
        rw [hstep]
        exact horder
      have hflags : (t.Upsert run source now).2 = (true, false) := by rw [hstep]
      refine ⟨?_, ?_, ih3.trans harch⟩
      · show (t.Upsert run source now).2 ::
            (upsertSeq rest (t.Upsert run source now).1).2 = _
        rw [List.length_cons, List.replicate_succ, ih1, hflags]
      · show (upsertSeq rest (t.Upsert run source now).1).1.activeOrder = _
        rw [ih2, hact, List.map_cons, List.reverse_cons, List.append_assoc]
        rfl

/-- C3: upserting any sequence of pairwise-distinct, previously unseen run
IDs into a fresh tracker returns (true, false) for every call, leaves
LenActive equal to the number of IDs, and lists the IDs newest-first in
IDs(false); concretely, upserting 1, 2, 3 yields IDs(false) = [3, 2, 1]. -/
theorem upsert_distinct_sequence_spec (calls : List (WorkflowRun × Parsed × Time))
    (hnd : (calls.map fun c => c.1.ID).Nodup) :
    (upsertSeq calls NewTracker).2 = List.replicate calls.length (true, false) ∧
    (upsertSeq calls NewTracker).1.LenActive = calls.length ∧
    (upsertSeq calls NewTracker).1.IDs false =
      (calls.map fun c => c.1.ID).reverse ∧
    tracker123.IDs false = [3, 2, 1] := by
  have hfresh : ∀ c ∈ calls, mfind NewTracker.active c.1.ID = none ∧
      mfind NewTracker.archived c.1.ID = none ∧
      c.1.ID ∉ NewTracker.activeOrder := by
    intro c _
    exact ⟨rfl, rfl, by simp [NewTracker]⟩
  obtain ⟨h1, h2, h3⟩ := upsertSeq_fresh calls NewTracker hfresh hnd
  refine ⟨h1, ?_, ?_, rfl⟩
  · rw [Tracker.LenActive, h2]
    simp [NewTracker]
  · rw [Tracker.IDs, if_neg (by simp), h2]
    simp [NewTracker]

theorem upsert_distinct_sequence_spec_witness :
    (([((sampleRun 1 RunStatusPending, noSource, 0)),
       ((sampleRun 2 RunStatusPending, noSource, 1)),
       ((sampleRun 3 RunStatusPending, noSource, 2))].map
        fun c => c.1.ID).Nodup) ∧
    (upsertSeq [((sampleRun 1 RunStatusPending, noSource, 0)),
       ((sampleRun 2 RunStatusPending, noSource, 1)),
       ((sampleRun 3 RunStatusPending, noSource, 2))] NewTracker).2 =
      List.replicate 3 (true, false) :=
  ⟨by decide,
    (upsert_distinct_sequence_spec _ (by decide)).1⟩

/-- C4: in every state reachable by Upsert, Archive and Unarchive from a
fresh tracker, no run ID is in both catalogs, each order sequence holds
exactly the keys of its map, and no order sequence repeats an ID. -/
theorem reachable_catalogs_consistent (t : Tracker) (h : Reachable t) :
    (∀ id, ¬(id ∈ mkeys t.active ∧ id ∈ mkeys t.archived)) ∧
    (∀ id, id ∈ t.activeOrder ↔ id ∈ mkeys t.active) ∧
    (∀ id, id ∈ t.archivedOrder ↔ id ∈ mkeys t.archived) ∧
    t.activeOrder.Nodup ∧ t.archivedOrder.Nodup := by
  have inv := reachable_inv t h
  exact ⟨fun id hc => inv.disjoint id hc.1 hc.2, inv.activeOrderKeys,
    inv.archivedOrderKeys, inv.activeOrderNodup, inv.archivedOrderNodup⟩

theorem reachable_catalogs_consistent_witness :
    Reachable scenario42b ∧
    (∀ id, ¬(id ∈ mkeys scenario42b.active ∧ id ∈ mkeys scenario42b.archived)) :=
  have hr : Reachable scenario42b :=
    Reachable.archive scenario42a 42 1
      (Reachable.upsert NewTracker (sampleRun 42 RunStatusPending) noSource 0
        Reachable.new)
  ⟨hr, (reachable_catalogs_consistent scenario42b hr).1⟩

/-- C5: importing the four values returned by ExportState reproduces the
same VisibleRuns and IDs observations, for every reachable state and for
every enumeration order of the two maps that ExportState might have used
(any permutation of the map values). -/
theorem export_import_roundtrip (t : Tracker) (h : Reachable t)
    (activeEnum archivedEnum : List TrackedRun)
    (ha : activeEnum.Perm (mvalues t.active))
    (hb : archivedEnum.Perm (mvalues t.archived)) :
    (Tracker.ImportState t
      (t.ExportState activeEnum archivedEnum).1
      (t.ExportState activeEnum archivedEnum).2.1
      (t.ExportState activeEnum archivedEnum).2.2.1
      (t.ExportState activeEnum archivedEnum).2.2.2).VisibleRuns false =
        t.VisibleRuns false ∧
    (Tracker.ImportState t
      (t.ExportState activeEnum archivedEnum).1
      (t.ExportState activeEnum archivedEnum).2.1
      (t.ExportState activeEnum archivedEnum).2.2.1
      (t.ExportState activeEnum archivedEnum).2.2.2).VisibleRuns true =
        t.VisibleRuns true ∧
    (Tracker.ImportState t
      (t.ExportState activeEnum archivedEnum).1
      (t.ExportState activeEnum archivedEnum).2.1
      (t.ExportState activeEnum archivedEnum).2.2.1
      (t.ExportState activeEnum archivedEnum).2.2.2).IDs false =
        t.IDs false ∧
    (Tracker.ImportState t
      (t.ExportState activeEnum archivedEnum).1
      (t.ExportState activeEnum archivedEnum).2.1
      (t.ExportState activeEnum archivedEnum).2.2.1
      (t.ExportState activeEnum archivedEnum).2.2.2).IDs true =
        t.IDs true := by
  have inv := reachable_inv t h
  have hfa : ∀ k, mfind (buildMap activeEnum) k = mfind t.active k :=
    mfind_buildMap t.active activeEnum inv.activeKeysNodup inv.activeKeyID ha
  have hfb : ∀ k, mfind (buildMap archivedEnum) k = mfind t.archived k :=
    mfind_buildMap t.archived archivedEnum inv.archivedKeysNodup
      inv.archivedKeyID hb
  refine ⟨?_, ?_, rfl, rfl⟩
  · show collectRuns t.activeOrder (buildMap activeEnum) =
      collectRuns t.activeOrder t.active
    exact collectRuns_congr _ _ _ hfa
  · show collectRuns t.archivedOrder (buildMap archivedEnum) =
      collectRuns t.archivedOrder t.archived
    exact collectRuns_congr _ _ _ hfb

theorem export_import_roundtrip_witness :
    Reachable tracker123 ∧
    (mvalues tracker123.active).Perm (mvalues tracker123.active) ∧
    (mvalues tracker123.archived).Perm (mvalues tracker123.archived) ∧
    (Tracker.ImportState tracker123
      (tracker123.ExportState (mvalues tracker123.active)
        (mvalues tracker123.archived)).1
      (tracker123.ExportState (mvalues tracker123.active)
        (mvalues tracker123.archived)).2.1
      (tracker123.ExportState (mvalues tracker123.active)
        (mvalues tracker123.archived)).2.2.1
      (tracker123.ExportState (mvalues tracker123.active)
        (mvalues tracker123.archived)).2.2.2).VisibleRuns false =
        tracker123.VisibleRuns false :=
  have hr : Reachable tracker123 :=
    Reachable.upsert _ _ _ _
      (Reachable.upsert _ _ _ _
        (Reachable.upsert _ _ _ _ Reachable.new))
  ⟨hr, List.Perm.refl _, List.Perm.refl _,
    (export_import_roundtrip tracker123 hr _ _ (List.Perm.refl _)
      (List.Perm.refl _)).1⟩

/-- C6: Archive returns true exactly when the id is in the active catalog
and Unarchive exactly when it is in the archived catalog; in the true case
the run moves to the front of the destination order (Archive stamping
ArchivedAt = now); in the false case the tracker is left completely
unchanged.  Both operations are total functions of the model, so the
boolean is their only failure signal. -/
theorem archive_unarchive_spec (t : Tracker) (id : Int64) (now : Time) :
    ((t.Archive id now).2 = true ↔ id ∈ mkeys t.active) ∧
    ((t.Archive id now).2 = false → (t.Archive id now).1 = t) ∧
    (∀ e, mfind t.active id = some e →
      mfind (t.Archive id now).1.active id = none ∧
      id ∉ (t.Archive id now).1.activeOrder ∧
      mfind (t.Archive id now).1.archived id =
        some { e with ArchivedAt := now } ∧
      (t.Archive id now).1.archivedOrder.head? = some id) ∧
    ((t.Unarchive id).2 = true ↔ id ∈ mkeys t.archived) ∧
    ((t.Unarchive id).2 = false → (t.Unarchive id).1 = t) ∧
    (∀ e, mfind t.archived id = some e →
      mfind (t.Unarchive id).1.archived id = none ∧
      id ∉ (t.Unarchive id).1.archivedOrder ∧
      mfind (t.Unarchive id).1.active id = some e ∧
      (t.Unarchive id).1.activeOrder.head? = some id) := by
  refine ⟨?_, ?_, ?_, ?_, ?_, ?_⟩
  · cases h : mfind t.active id with
    | none =>
        rw [archive_none_eq t id now h]
        simp [(mfind_eq_none_iff _ _).mp h]
    | some e =>
        rw [archive_some_eq t id now e h]
        simp [mem_mkeys_of_mfind _ _ _ h]
  · cases h : mfind t.active id with
    | none =>
        rw [archive_none_eq t id now h]
        intro _
        rfl
    | some e =>
        rw [archive_some_eq t id now e h]
        intro hc
        simp at hc
  · intro e he
    rw [archive_some_eq t id now e he]
    refine ⟨?_, ?_, ?_, rfl⟩
    · show mfind (merase t.active id) id = none
      rw [mfind_merase, if_pos rfl]
    · exact not_mem_removeID_self t.activeOrder id
    · show mfind (minsert t.archived id { e with ArchivedAt := now }) id = _
      rw [mfind_minsert, if_pos rfl]
  · cases h : mfind t.archived id with
    | none =>
        rw [unarchive_none_eq t id h]
        simp [(mfind_eq_none_iff _ _).mp h]
    | some e =>
        rw [unarchive_some_eq t id e h]
        simp [mem_mkeys_of_mfind _ _ _ h]
  · cases h : mfind t.archived id with
    | none =>
        rw [unarchive_none_eq t id h]
        intro _
        rfl
    | some e =>
        rw [unarchive_some_eq t id e h]
        intro hc
        simp at hc
  · intro e he
    rw [unarchive_some_eq t id e he]
    refine ⟨?_, ?_, ?_, rfl⟩
    · show mfind (merase t.archived id) id = none
      rw [mfind_merase, if_pos rfl]
    · exact not_mem_removeID_self t.archivedOrder id
    · show mfind (minsert t.active id e) id = _
      rw [mfind_minsert, if_pos rfl]

theorem archive_unarchive_spec_witness :
    mfind scenario42a.active 42 = some entry42pending ∧
    mfind (scenario42a.Archive 42 1).1.archived 42 =
      some { entry42pending with ArchivedAt := 1 } :=
  ⟨rfl,
    ((archive_unarchive_spec scenario42a 42 1).2.2.1 entry42pending rfl).2.2.1⟩

theorem findRun_active (t : Tracker) (id : Int64) (e : TrackedRun)
    (h : mfind t.active id = some e) : findRun t id = some e := by
  rw [findRun, h]

theorem findRun_not_active (t : Tracker) (id : Int64)
    (h : mfind t.active id = none) : findRun t id = mfind t.archived id := by
  rw [findRun, h]

theorem findRun_congr (t t2 : Tracker) (id : Int64)
    (h1 : mfind t2.active id = mfind t.active id)
    (h2 : mfind t2.archived id = mfind t.archived id) :
    findRun t2 id = findRun t id := by
  rw [findRun, findRun, h1, h2]

/-- C7: AddedAt is written exactly once.  A fresh Upsert stores the entry
with AddedAt = now; and whenever a run is present (in either catalog)
before and after an Upsert, Archive or Unarchive, its AddedAt is
unchanged, across archive and unarchive cycles. -/
theorem addedAt_write_once (t : Tracker) (hreach : Reachable t)
    (run : WorkflowRun) (source : Parsed)
    (now : Time) (id aid uid : Int64) (anow : Time) :
    (mfind t.active run.ID = none → mfind t.archived run.ID = none →
      mfind (t.Upsert run source now).1.active run.ID =
        some { Run := run, Source := source, AddedAt := now, ArchivedAt := 0 }) ∧
    (∀ e e2, findRun t id = some e →
      findRun (t.Upsert run source now).1 id = some e2 →
      e2.AddedAt = e.AddedAt) ∧
    (∀ e e2, findRun t id = some e →
      findRun (t.Archive aid anow).1 id = some e2 →
      e2.AddedAt = e.AddedAt) ∧
    (∀ e e2, findRun t id = some e →
      findRun (t.Unarchive uid).1 id = some e2 →
      e2.AddedAt = e.AddedAt) := by
  refine ⟨?_, ?_, ?_, ?_⟩
  · intro h1 h2
    rw [upsert_new_eq t run source now h1 h2]
    show mfind (minsert t.active run.ID _) run.ID = _
    rw [mfind_minsert, if_pos rfl]
  · intro e e2 he he2
    cases hA : mfind t.active run.ID with
    | some e0 =>
        by_cases hid : id = run.ID
        · subst hid
          have hf : findRun (t.Upsert run source now).1 run.ID =
              some (mergeEntry e0 run source) := by
            rw [upsert_active_eq t run source now e0 hA]
            exact findRun_active _ run.ID _ (by
              show mfind (minsert t.active run.ID (mergeEntry e0 run source)) run.ID = _
              rw [mfind_minsert, if_pos rfl])
          rw [hf] at he2
          rw [findRun_active t run.ID e0 hA] at he
          cases he
          cases he2
          rw [mergeEntry_AddedAt]
        · have hcongr : findRun (t.Upsert run source now).1 id = findRun t id := by
            rw [upsert_active_eq t run source now e0 hA]
            exact findRun_congr t _ id (by
              show mfind (minsert t.active run.ID (mergeEntry e0 run source)) id = _
              rw [mfind_minsert, if_neg hid]) rfl
          rw [hcongr, he] at he2
          cases he2
          rfl
    | none =>
      cases hB : mfind t.archived run.ID with
      | some e0 =>
          by_cases hid : id = run.ID
          · subst hid
            rw [findRun_not_active t run.ID hA, hB] at he
            cases he
            have hf : findRun (t.Upsert run source now).1 run.ID =
                some (mergeEntry e run source) := by
              rw [upsert_archived_eq t run source now e hA hB]
              exact findRun_active _ run.ID _ (by
                show mfind (minsert t.active run.ID (mergeEntry e run source)) run.ID = _
                rw [mfind_minsert, if_pos rfl])
            rw [hf] at he2
            cases he2
            rw [mergeEntry_AddedAt]
          · have hcongr : findRun (t.Upsert run source now).1 id = findRun t id := by
              rw [upsert_archived_eq t run source now e0 hA hB]
              exact findRun_congr t _ id (by
                show mfind (minsert t.active run.ID (mergeEntry e0 run source)) id = _
                rw [mfind_minsert, if_neg hid]) (by
                show mfind (merase t.archived run.ID) id = _
                rw [mfind_merase, if_neg hid])
            rw [hcongr, he] at he2
            cases he2
            rfl
      | none =>
          by_cases hid : id = run.ID
          · subst hid
            rw [findRun_not_active t run.ID hA, hB] at he
            exact Option.noConfusion he
          · have hcongr : findRun (t.Upsert run source now).1 id = findRun t id := by
              rw [upsert_new_eq t run source now hA hB]
              exact findRun_congr t _ id (by
                show mfind (minsert t.active run.ID _) id = _
                rw [mfind_minsert, if_neg hid]) rfl
            rw [hcongr, he] at he2
            cases he2
            rfl
  · intro e e2 he he2
    cases hA : mfind t.active aid with
    | none =>
        rw [archive_none_eq t aid anow hA] at he2
        rw [he] at he2
        cases he2
        rfl
    | some e0 =>
        by_cases hid : id = aid
        · subst hid
          rw [findRun_active t id e0 hA] at he
          cases he
          have hf : findRun (t.Archive id anow).1 id =
              some { e with ArchivedAt := anow } := by
            rw [archive_some_eq t id anow e hA]
            have hnone : mfind (merase t.active id) id = none := by
              rw [mfind_merase, if_pos rfl]
            rw [findRun_not_active _ id hnone]
            show mfind (minsert t.archived id { e with ArchivedAt := anow }) id = _
            rw [mfind_minsert, if_pos rfl]
          rw [hf] at he2
          cases he2
          rfl
        · have hcongr : findRun (t.Archive aid anow).1 id = findRun t id := by
            rw [archive_some_eq t aid anow e0 hA]
            exact findRun_congr t _ id (by
              show mfind (merase t.active aid) id = _
              rw [mfind_merase, if_neg hid]) (by
              show mfind (minsert t.archived aid { e0 with ArchivedAt := anow }) id = _
              rw [mfind_minsert, if_neg hid])
          rw [hcongr, he] at he2
          cases he2
          rfl
  · intro e e2 he he2
    cases hB : mfind t.archived uid with
    | none =>
        rw [unarchive_none_eq t uid hB] at he2
        rw [he] at he2
        cases he2
        rfl
    | some e0 =>
        by_cases hid : id = uid
        · subst hid
          have hf : findRun (t.Unarchive id).1 id = some e0 := by
            rw [unarchive_some_eq t id e0 hB]
            exact findRun_active _ id _ (by
              show mfind (minsert t.active id e0) id = _
              rw [mfind_minsert, if_pos rfl])
          rw [hf] at he2
          cases he2
          cases hAc : mfind t.active id with
          | none =>
              rw [findRun_not_active t id hAc, hB] at he
              cases he
              rfl
          | some e1 =>
              -- the run would be in both catalogs at once, which the
              -- cross-catalog disjointness of reachable states excludes
              have inv := reachable_inv t hreach
              exact absurd (mem_mkeys_of_mfind _ _ _ hB)
                (inv.disjoint id (mem_mkeys_of_mfind _ _ _ hAc))
        · have hcongr : findRun (t.Unarchive uid).1 id = findRun t id := by
            rw [unarchive_some_eq t uid e0 hB]
            exact findRun_congr t _ id (by
              show mfind (minsert t.active uid e0) id = _
              rw [mfind_minsert, if_neg hid]) (by
              show mfind (merase t.archived uid) id = _
              rw [mfind_merase, if_neg hid])
          rw [hcongr, he] at he2
          cases he2
          rfl

theorem addedAt_write_once_witness :
    Reachable NewTracker ∧
    mfind NewTracker.active 42 = none ∧
    mfind NewTracker.archived 42 = none ∧
    mfind (NewTracker.Upsert (sampleRun 42 RunStatusPending) noSource 0).1.active
      42 = some entry42pending :=
  ⟨Reachable.new, rfl, rfl,
    (addedAt_write_once NewTracker Reachable.new (sampleRun 42 RunStatusPending)
      noSource 0 0 0 0 0).1 rfl rfl⟩

/-- C8: VisibleRuns is total on every tracker state, including
inconsistent states produced by ImportState: it returns exactly the
entries of the chosen catalog in order-sequence order, silently skipping
any order entry whose map entry is missing, and every run it returns
comes from an order entry that does have a map entry. -/
theorem visibleRuns_total_spec (t : Tracker) (b : Bool) :
    t.VisibleRuns b =
      (t.IDs b).filterMap
        (fun id => mfind (if b then t.archived else t.active) id) ∧
    (∀ r ∈ t.VisibleRuns b, ∃ id ∈ t.IDs b,
      mfind (if b then t.archived else t.active) id = some r) := by
  cases b with
  | false =>
      have h1 : t.VisibleRuns false =
          t.activeOrder.filterMap fun id => mfind t.active id := by
        show collectRuns t.activeOrder t.active = _
        exact collectRuns_eq_filterMap _ _
      refine ⟨h1, ?_⟩
      intro r hr
      rw [h1] at hr
      rcases List.mem_filterMap.mp hr with ⟨id, hid, hsome⟩
      exact ⟨id, hid, hsome⟩
  | true =>
      have h1 : t.VisibleRuns true =
          t.archivedOrder.filterMap fun id => mfind t.archived id := by
        show collectRuns t.archivedOrder t.archived = _
        exact collectRuns_eq_filterMap _ _
      refine ⟨h1, ?_⟩
      intro r hr
      rw [h1] at hr
      rcases List.mem_filterMap.mp hr with ⟨id, hid, hsome⟩
      exact ⟨id, hid, hsome⟩

theorem visibleRuns_total_spec_witness :
    trackerDangling.VisibleRuns false =
      (trackerDangling.IDs false).filterMap
        (fun id =>
          mfind (if false then trackerDangling.archived else trackerDangling.active)
            id) :=
  (visibleRuns_total_spec trackerDangling false).1

/-- C9: the order slices returned by ExportState are fresh heap cells,
distinct from the cells the tracker itself references; consequently
writing anything to either returned slice leaves the whole dereferenced
view of the tracker, and so every later VisibleRuns, IDs, LenActive and
LenArchived observation, exactly as if no write had happened.  The
hypotheses say the tracker order slices are live cells of the heap, which
holds for every tracker a run of the program builds. -/
theorem exportState_order_copies (t : RTracker) (h : Heap)
    (ha : t.activeOrderRef < h.length) (hb : t.archivedOrderRef < h.length)
    (activeEnum archivedEnum : List TrackedRun) (v w : List Int64) :
    (t.ExportState h activeEnum archivedEnum).1.2.1 ≠ t.activeOrderRef ∧
    (t.ExportState h activeEnum archivedEnum).1.2.1 ≠ t.archivedOrderRef ∧
    (t.ExportState h activeEnum archivedEnum).1.2.2.2 ≠ t.activeOrderRef ∧
    (t.ExportState h activeEnum archivedEnum).1.2.2.2 ≠ t.archivedOrderRef ∧
    t.view (heapSet (heapSet (t.ExportState h activeEnum archivedEnum).2
        (t.ExportState h activeEnum archivedEnum).1.2.1 v)
        (t.ExportState h activeEnum archivedEnum).1.2.2.2 w) = t.view h := by
  have h1 : (t.ExportState h activeEnum archivedEnum).1.2.1 = h.length := rfl
  have h2 : (t.ExportState h activeEnum archivedEnum).1.2.2.2 = h.length + 1 := by
    show (h ++ [heapGet h t.activeOrderRef]).length = h.length + 1
    simp
  have hex : (t.ExportState h activeEnum archivedEnum).2 =
      (h ++ [heapGet h t.activeOrderRef]) ++
        [heapGet (h ++ [heapGet h t.activeOrderRef]) t.archivedOrderRef] := rfl
  have hget : ∀ r, r < h.length →
      heapGet (heapSet (heapSet ((h ++ [heapGet h t.activeOrderRef]) ++
          [heapGet (h ++ [heapGet h t.activeOrderRef]) t.archivedOrderRef])
          h.length v) (h.length + 1) w) r = heapGet h r := by
    intro r hr
    rw [heapGet_set_ne _ _ _ _ (Nat.ne_of_gt (Nat.lt_succ_of_lt hr)),
        heapGet_set_ne _ _ _ _ (Nat.ne_of_gt hr),
        heapGet_append_lt _ _ _ (by simpa using Nat.lt_succ_of_lt hr),
        heapGet_append_lt _ _ _ hr]
  refine ⟨?_, ?_, ?_, ?_, ?_⟩
  · rw [h1]; exact Nat.ne_of_gt ha
  · rw [h1]; exact Nat.ne_of_gt hb
  · rw [h2]; exact Nat.ne_of_gt (Nat.lt_succ_of_lt ha)
  · rw [h2]; exact Nat.ne_of_gt (Nat.lt_succ_of_lt hb)
  · rw [h1, h2, hex, RTracker.view, RTracker.view, hget _ ha, hget _ hb]

theorem exportState_order_copies_witness :
    sampleRT.activeOrderRef < sampleHeap.length ∧
    sampleRT.archivedOrderRef < sampleHeap.length ∧
    sampleRT.view (heapSet (heapSet (sampleRT.ExportState sampleHeap [] []).2
        (sampleRT.ExportState sampleHeap [] []).1.2.1 [9])
        (sampleRT.ExportState sampleHeap [] []).1.2.2.2 [8]) =
      sampleRT.view sampleHeap :=
  ⟨by decide, by decide,
    (exportState_order_copies sampleRT sampleHeap (by decide) (by decide)
      [] [] [9] [8]).2.2.2.2⟩

/-- C10: ImportState keeps clones of the order slices it is given, and IDs
returns a clone of the internal order slice; writing to the callers
slices after ImportState returns, or to the slice IDs returned, leaves
the dereferenced view of the tracker (hence all later VisibleRuns, IDs,
LenActive and LenArchived observations) exactly as if no write had
happened. -/
theorem importState_ids_clone_spec (t : RTracker) (h : Heap)
    (entriesA entriesB : List TrackedRun) (ra rb : Nat)
    (hra : ra < h.length) (hrb : rb < h.length)
    (hta : t.activeOrderRef < h.length) (htb : t.archivedOrderRef < h.length)
    (v w u : List Int64) (b : Bool) :
    ((t.ImportState h entriesA ra entriesB rb).1.view
        (heapSet (heapSet (t.ImportState h entriesA ra entriesB rb).2 ra v)
          rb w) =
      (t.ImportState h entriesA ra entriesB rb).1.view
        (t.ImportState h entriesA ra entriesB rb).2) ∧
    (t.view (heapSet (t.IDs h b).2 (t.IDs h b).1 u) = t.view h) := by
  constructor
  · have e1 : (t.ImportState h entriesA ra entriesB rb).1.activeOrderRef =
        h.length := rfl
    have e2 : (t.ImportState h entriesA ra entriesB rb).1.archivedOrderRef =
        h.length + 1 := by
      show (h ++ [heapGet h ra]).length = h.length + 1
      simp
    have g1 : ∀ r, r ≠ ra → r ≠ rb → ∀ H : Heap,
        heapGet (heapSet (heapSet H ra v) rb w) r = heapGet H r := by
      intro r hr1 hr2 H
      rw [heapGet_set_ne _ _ _ _ (Ne.symm hr2), heapGet_set_ne _ _ _ _ (Ne.symm hr1)]
    rw [RTracker.view, RTracker.view, e1, e2,
        g1 h.length (Nat.ne_of_gt hra) (Nat.ne_of_gt hrb) _,
        g1 (h.length + 1) (Nat.ne_of_gt (Nat.lt_succ_of_lt hra))
          (Nat.ne_of_gt (Nat.lt_succ_of_lt hrb)) _]
  · cases b with
    | false =>
        show t.view (heapSet (h ++ [heapGet h t.activeOrderRef]) h.length u) =
          t.view h
        rw [RTracker.view, RTracker.view,
            heapGet_set_ne _ _ _ _ (Nat.ne_of_gt hta),
            heapGet_append_lt _ _ _ hta,
            heapGet_set_ne _ _ _ _ (Nat.ne_of_gt htb),
            heapGet_append_lt _ _ _ htb]
    | true =>
        show t.view (heapSet (h ++ [heapGet h t.archivedOrderRef]) h.length u) =
          t.view h
        rw [RTracker.view, RTracker.view,
            heapGet_set_ne _ _ _ _ (Nat.ne_of_gt hta),
            heapGet_append_lt _ _ _ hta,
            heapGet_set_ne _ _ _ _ (Nat.ne_of_gt htb),
            heapGet_append_lt _ _ _ htb]

theorem importState_ids_clone_spec_witness :
    (0 : Nat) < sampleHeap.length ∧ (1 : Nat) < sampleHeap.length ∧
    sampleRT.activeOrderRef < sampleHeap.length ∧
    sampleRT.archivedOrderRef < sampleHeap.length ∧
    sampleRT.view
        (heapSet (sampleRT.IDs sampleHeap false).2
          (sampleRT.IDs sampleHeap false).1 [7]) =
      sampleRT.view sampleHeap :=
  ⟨by decide, by decide, by decide, by decide,
    (importState_ids_clone_spec sampleRT sampleHeap [] [] 0 1 (by decide)
      (by decide) (by decide) (by decide) [5] [6] [7] false).2⟩

end GhWatch
